import Mathlib

/-!
Verification of the runelite-github-app PR triage bot.

Shallow embedding of `src/index.ts` (a Probot GitHub app).  The embedding
models the two event handlers as pure functions:

* the `pull_request` handler: label reconciliation (`setHasLabel`), the file
  classifier, the plugin diff-narrative generator (property-file parsing via
  `readKV`, clone-URL extraction via `extractURL`), and the sticky-comment
  upserter;
* the `pull_request_review.submitted` handler: the per-login review decision
  map and the `ready to merge` label decision.

GitHub state (labels, comments) is passed in and returned explicitly; network
fetches are an oracle function `String → String` (URL to file text); failures
(`throw` in JS) are `Except.error`.  JS regexes are embedded as executable
functions over `List Char` implementing the leftmost-match-with-backtracking
semantics of the concrete patterns appearing in the source.
-/

namespace RLGH

/-- Label constant, `src/index.ts` line 5. -/
def PLUGIN_CHANGE : String := "plugin change"

/-- Label constant, `src/index.ts` line 6. -/
def PACKAGE_CHANGE : String := "package change"

/-- Label constant, `src/index.ts` line 7. -/
def DEPENDENCY_CHANGE : String := "dependency change"

/-- Label constant, `src/index.ts` line 8. -/
def READY_TO_MERGE : String := "ready to merge"

/-- The GitHub API calls the `setHasLabel` closure (lines 28-34) can issue. -/
inductive LabelOp where
  | addLabels (label : String)
  | removeLabel (label : String)
  | noop
deriving DecidableEq

/-- Which API call `setHasLabel` (lines 28-34) issues: add when the condition
holds and the checked label set lacks the label, remove when the condition
fails and the checked set has it, otherwise nothing. -/
def setHasLabelOp (condition : Bool) (label : String) (labels : Finset String) : LabelOp :=
  if condition ∧ label ∉ labels then .addLabels label
  else if ¬condition ∧ label ∈ labels then .removeLabel label
  else .noop

/-- Effect of a label API call on the issue's label set (a set: GitHub labels
have no multiplicity). -/
def applyLabelOp : LabelOp → Finset String → Finset String
  | .addLabels l, s => insert l s
  | .removeLabel l, s => s.erase l
  | .noop, s => s

/-- The function `setHasLabel` (lines 28-34) as a state transformer on the label set, in
the situation where the snapshot set it checks coincides with the current
label set (true at every call site for the label being touched, since the
handler touches four pairwise distinct labels). -/
def setHasLabel (condition : Bool) (label : String) (labels : Finset String) : Finset String :=
  applyLabelOp (setHasLabelOp condition label labels) labels

/-! ## Property-file parsing (`readKV`, lines 63-69)

The JS code maps `/([^=]+)=(.*)/.exec(line)` over the lines of the fetched
file, drops the non-matches, and reduces the matches into an object with
`acc[key] = value`.  The regex is unanchored, so `exec` finds the leftmost
match; at a fixed start position `[^=]+` is a maximal nonempty run of
non-`=` characters (a negated class matches any character, line terminators
included) that must be followed by a literal `=` (backtracking to a shorter
run cannot help, because the character after a shorter run is still not
`=`), and `(.*)` takes the remainder of the line up to the next JS line
terminator: the JS `.` matches neither `\n`, `\r`, U+2028 nor U+2029 (after
the `split("\n")` only the latter three can still occur in a line). -/

/-- The characters the JS regex metacharacter `.` does not match: the
ECMAScript line terminators LF, CR, LINE SEPARATOR and PARAGRAPH
SEPARATOR. -/
def isJSLineTerminator (c : Char) : Bool :=
  c == '\n' || c == '\r' || c == '\u2028' || c == '\u2029'

/-- The regex `([^=]+)=(.*)` anchored at the start of `cs`: a nonempty run of
non-`=` characters, a literal `=`, then `(.*)`, which stops at the first
line terminator.  The greedy group `[^=]+` is `takeWhile`; what follows it
is `dropWhile` of the same predicate, and the match succeeds iff that
remainder starts with `=` (a shorter backtracked run would still be followed
by a non-`=` character, so backtracking never helps this pattern). -/
def matchKVAt (cs : List Char) : Option (List Char × List Char) :=
  let key := cs.takeWhile (fun c => c != '=')
  if key.isEmpty then none
  else
    match cs.dropWhile (fun c => c != '=') with
    | '=' :: v => some (key, v.takeWhile (fun c => !isJSLineTerminator c))
    | _ => none

/-- The `exec` of the unanchored regex `([^=]+)=(.*)`: try each start position
from the left. -/
def execKVRegex : List Char → Option (List Char × List Char)
  | [] => none
  | c :: cs =>
    match matchKVAt (c :: cs) with
    | some r => some r
    | none => execKVRegex cs

/-- JS `data.split("\n")`, on the character-list representation: maximal
runs between newline characters, with empty segments kept. -/
def splitLines : List Char → List (List Char)
  | [] => [[]]
  | c :: rest =>
    if c = '\n' then [] :: splitLines rest
    else
      match splitLines rest with
      | [] => [[c]]
      | l :: ls => (c :: l) :: ls

/-- One line of the property file, as the JS `map`/`filter` pipeline sees it
(regex groups converted back to strings). -/
def parseKVLine (line : List Char) : Option (String × String) :=
  (execKVRegex line).map (fun p => (String.mk p.1, String.mk p.2))

/-- JS object assignment `acc[key] = value`: overwrite in place when the key
is present (preserving first-insertion order, as JS objects do for string
keys), append otherwise. -/
def objSet {α : Type} (m : List (String × α)) (k : String) (v : α) : List (String × α) :=
  if m.any (fun p => p.1 == k) then m.map (fun p => if p.1 == k then (k, v) else p)
  else m ++ [(k, v)]

/-- JS property read `m[q]` on the association-list model of an object. -/
def objGet {α : Type} : List (String × α) → String → Option α
  | [], _ => none
  | (k, v) :: m, q => if q == k then some v else objGet m q

/-- The function `readKV` (lines 63-69): split the fetched content on newlines, run the
regex on each line, keep the matches, and fold them into a record with JS
object assignment. -/
def readKV (data : String) : List (String × String) :=
  ((splitLines data.toList).filterMap parseKVLine).foldl (fun acc p => objSet acc p.1 p.2) []

/-- Reference description of one regex application, in the spec's terms:
skip the leading run of `=` characters (the regex is unanchored), then the
line contributes iff what remains has the shape `key=value` with a nonempty
`key` free of `=`; the value runs up to the first line terminator (the JS
`.` does not match those). -/
def parseSpecKV (cs : List Char) : Option (List Char × List Char) :=
  let rest := cs.dropWhile (fun c => c == '=')
  let key := rest.takeWhile (fun c => c != '=')
  match rest.dropWhile (fun c => c != '=') with
  | '=' :: v => some (key, v.takeWhile (fun c => !isJSLineTerminator c))
  | _ => none

/-! ## Review consensus engine (`pull_request_review.submitted`, lines 114-149) -/

/-- One review as the handler sees it: author login (`r.user.login`), state
and body text. -/
structure Review where
  login : String
  state : String
  body : String
deriving DecidableEq

/-- Line 132: `r.state == "APPROVED" || r.body == "lgtm"`. -/
def reviewApproved (r : Review) : Bool := r.state == "APPROVED" || r.body == "lgtm"

/-- The guard of line 133: the review touches the decision map iff it is
approving or its state is not a plain comment. -/
def reviewDecisive (r : Review) : Bool :=
  reviewApproved r || (!reviewApproved r && r.state != "COMMENTED")

/-- Lines 129-136: filter the reviews to team members, then fold them in
returned order into a per-login decision object with JS assignment. -/
def reviewStates (members : List String) (reviews : List Review) : List (String × Bool) :=
  (reviews.filter (fun r => members.contains r.login)).foldl
    (fun acc r =>
      if reviewApproved r || (!reviewApproved r && r.state != "COMMENTED")
      then objSet acc r.login (reviewApproved r)
      else acc) []

/-- Lines 114-149: the whole `pull_request_review.submitted` handler as a
transformer of the issue's label set.  `unapproved` (line 137) is the list of
object keys whose value is false. -/
def reviewHandler (members : List String) (reviews : List Review) (labels : Finset String) :
    Finset String :=
  if PLUGIN_CHANGE ∉ labels then labels
  else if reviews.length ≤ 0 then labels
  else if (((reviewStates members reviews).filter (fun p => !p.2)).map Prod.fst).length > 0 then
    (if READY_TO_MERGE ∈ labels then labels.erase READY_TO_MERGE else labels)
  else if (reviewStates members reviews).length ≠ 0 then
    (if READY_TO_MERGE ∉ labels then insert READY_TO_MERGE labels else labels)
  else labels

/-! ## Clone-URL extraction (`extractURL`, lines 72-79)

The regex is `/https:\/\/github\.com\/([^/]+)\/([^.]+).git/`.  Note that it
is unanchored and that the `.` before `git` is not escaped, so it matches an
arbitrary character. -/

/-- The literal head `https://github.com/` of the clone-URL pattern. -/
def ghLit : List Char := "https://github.com/".toList

/-- Backtracking search for group 2 of the clone-URL regex: a candidate of
length `j + 1` (a nonempty dot-free run, guaranteed by starting the search at
the maximal dot-free prefix and counting down) must be followed by one
character matched by the unescaped `.` (any character except a line
terminator) and then the literal `git`.  Greedy matching tries the longest
candidate first. -/
def searchGitAt (rest2 : List Char) : Nat → Option Nat
  | 0 => none
  | j + 1 =>
    match rest2.drop (j + 1) with
    | c :: tail =>
      if !isJSLineTerminator c && ("git".toList).isPrefixOf tail then some (j + 1)
      else searchGitAt rest2 j
    | [] => searchGitAt rest2 j

/-- The clone-URL regex anchored at the start of `s`: the literal prefix,
then `([^/]+)` (maximal, necessarily ending at the next `/`), the literal
`/`, then `([^.]+)` with backtracking over the `.git`-like tail. -/
def matchCloneAt (s : List Char) : Option (List Char × List Char) :=
  if ghLit.isPrefixOf s then
    let rest := s.drop ghLit.length
    let user := rest.takeWhile (fun c => c != '/')
    if user.isEmpty then none
    else
      match rest.dropWhile (fun c => c != '/') with
      | [] => none
      | _ :: rest2 =>
        match searchGitAt rest2 (rest2.takeWhile (fun c => c != '.')).length with
        | some j => some (user, rest2.take j)
        | none => none
  else none

/-- Leftmost match of the unanchored clone-URL regex. -/
def execCloneRegex : List Char → Option (List Char × List Char)
  | [] => none
  | c :: cs =>
    match matchCloneAt (c :: cs) with
    | some r => some r
    | none => execCloneRegex cs

/-- The function `extractURL` (lines 72-79): the `{user, repo}` groups of the first match,
or the line-75 `throw` when the regex finds no match at all. -/
def extractURL (cloneURL : String) : Except String (String × String) :=
  match execCloneRegex cloneURL.toList with
  | some p => .ok (String.mk p.1, String.mk p.2)
  | none =>
    .error ("Plugin repository must be a github https clone url, not `" ++ cloneURL ++ "`")

/-! ## The `pull_request` handler (lines 22-112) -/

/-- One entry of the PR's changed-file list, with the fields the handler
reads.  `previous_filename` is only provided by GitHub for renames. -/
structure ChangedFile where
  filename : String
  status : String
  raw_url : String
  previous_filename : Option String
deriving DecidableEq

/-- One issue comment, with the fields the handler reads. -/
structure GHComment where
  id : Nat
  body : String
deriving DecidableEq

/-- Line 103. -/
def MARKER : String := "<!-- rlphc -->"

/-- JS `String.prototype.startsWith`, as a prefix test on the character
lists. -/
def strStartsWith (s pre : String) : Bool := pre.toList.isPrefixOf s.toList

/-- JS `s.replace(pat, "")` with a string pattern: delete the first (that is,
leftmost) occurrence of `pat`. -/
def removeFirst : List Char → List Char → List Char
  | [], _ => []
  | c :: cs, pat =>
    if pat.isPrefixOf (c :: cs) then (c :: cs).drop pat.length
    else c :: removeFirst cs pat

/-- Line 59: `file.filename.replace("plugins/", "")`. -/
def pluginNameOf (filename : String) : String :=
  String.mk (removeFirst filename.toList "plugins/".toList)

/-- Lines 38-52: partition the changed files, in order, into
(plugin files, dependency files, other files) by the `if`/`else if`/`else`
chain on the path. -/
def classify (files : List ChangedFile) :
    List ChangedFile × List ChangedFile × List ChangedFile :=
  files.foldl (fun acc f =>
    if strStartsWith f.filename "plugins/" then (acc.1 ++ [f], acc.2.1, acc.2.2)
    else if f.filename == "package/verification-template/build.gradle"
        || f.filename == "package/verification-template/gradle/verification-metadata.xml" then
      (acc.1, acc.2.1 ++ [f], acc.2.2)
    else (acc.1, acc.2.1, acc.2.2 ++ [f])) ([], [], [])

/-- JS property access as the source interpolates it: a missing property
coerces to the string `undefined` (both in `extractURL`'s argument and in
template literals). -/
def kvGetD (m : List (String × String)) (k : String) : String :=
  (objGet m k).getD "undefined"

/-- Lines 58-97: the narrative paragraph for one plugin file.  `fetch` is the
raw-content oracle (`github.request`); `owner`/`repo` are the base
repository's coordinates (`context.repo()`).  A JS `throw` (from
`extractURL`) or runtime `TypeError` (renamed file without
`previous_filename`) is an `Except.error`. -/
def genNarrative (fetch : String → String) (owner repo : String) (file : ChangedFile) :
    Except String String :=
  let pluginName := pluginNameOf file.filename
  if file.status == "removed" then
    .ok ("Removed `" ++ pluginName ++ "` plugin")
  else
    let newPlugin := readKV (fetch file.raw_url)
    match extractURL (kvGetD newPlugin "repository") with
    | .error e => .error e
    | .ok (user, repoName) =>
      if file.status == "modified" then
        let oldPlugin := readKV (fetch ("https://github.com/" ++ owner ++ "/" ++ repo
          ++ "/raw/master/plugins/" ++ pluginName))
        match extractURL (kvGetD oldPlugin "repository") with
        | .error e => .error e
        | .ok (oldUser, oldRepo) =>
          .ok ("`" ++ pluginName ++ "`: [" ++ kvGetD oldPlugin "commit" ++ "..."
            ++ kvGetD newPlugin "commit" ++ "](https://github.com/" ++ oldUser ++ "/" ++ oldRepo
            ++ "/compare/" ++ kvGetD oldPlugin "commit" ++ "..." ++ user ++ ":"
            ++ kvGetD newPlugin "commit" ++ ")")
      else if file.status == "added" then
        .ok ("New plugin `" ++ pluginName ++ "`: https://github.com/" ++ user ++ "/"
          ++ repoName ++ "/tree/" ++ kvGetD newPlugin "commit")
      else if file.status == "renamed" then
        match file.previous_filename with
        | none => .error "TypeError: previous_filename is undefined"
        | some prev =>
          let oldPluginName := pluginNameOf prev
          let oldPlugin := readKV (fetch ("https://github.com/" ++ owner ++ "/" ++ repo
            ++ "/raw/master/plugins/" ++ oldPluginName))
          match extractURL (kvGetD oldPlugin "repository") with
          | .error e => .error e
          | .ok (oldUser, oldRepo) =>
            .ok ("`" ++ oldPluginName ++ "` renamed to `" ++ pluginName
              ++ "`; this will cause all current installs to become uninstalled.\n["
              ++ kvGetD oldPlugin "commit" ++ "..." ++ kvGetD newPlugin "commit"
              ++ "](https://github.com/" ++ oldUser ++ "/" ++ oldRepo ++ "/compare/"
              ++ kvGetD oldPlugin "commit" ++ "..." ++ user ++ ":"
              ++ kvGetD newPlugin "commit" ++ ")")
      else
        .ok ("What is a `" ++ file.status ++ "`?")

/-- GitHub issues fresh comment ids; model them as one more than the largest
id present. -/
def freshCommentId (comments : List GHComment) : Nat :=
  (comments.map GHComment.id).foldr max 0 + 1

/-- Lines 103-111: find the first comment whose body starts with the marker;
overwrite its body in place if found, otherwise create a new comment - but
only when `difftext` is truthy (JS: the empty string is falsy). -/
def upsertSticky (difftext : String) (comments : List GHComment) : List GHComment :=
  match comments.find? (fun c => strStartsWith c.body MARKER) with
  | some sticky =>
    comments.map (fun c =>
      if c.id = sticky.id then { id := c.id, body := MARKER ++ "\n" ++ difftext } else c)
  | none =>
    if difftext == "" then comments
    else comments ++ [{ id := freshCommentId comments, body := MARKER ++ "\n" ++ difftext }]

/-- The `Promise.all` over per-file narrative generation: all succeed, or the
whole step fails with a rejection. -/
def mapExcept {α β : Type} (g : α → Except String β) : List α → Except String (List β)
  | [] => .ok []
  | x :: xs =>
    match g x with
    | .error e => .error e
    | .ok y =>
      match mapExcept g xs with
      | .error e => .error e
      | .ok ys => .ok (y :: ys)

/-- Result of one `pull_request` event: the label set after the four
`setHasLabel` calls (lines 36, 54-56, applied before narrative generation),
and the comment list after the upsert - or the propagated error, in which
case the comments are left untouched. -/
structure PRResult where
  labels : Finset String
  comments : Except String (List GHComment)

/-- Lines 22-112: the whole `pull_request` handler.  Each `setHasLabel` call
tests membership against the snapshot `labels0` taken at entry (the JS `Set`
built once on line 26) while its API effect lands on the evolving label
state, exactly as in the source. -/
def pullRequestHandler (fetch : String → String) (owner repo : String)
    (files : List ChangedFile) (comments : List GHComment) (labels0 : Finset String) :
    PRResult :=
  let l1 := applyLabelOp (setHasLabelOp false READY_TO_MERGE labels0) labels0
  let parts := classify files
  let l2 := applyLabelOp (setHasLabelOp (decide (parts.1.length > 0)) PLUGIN_CHANGE labels0) l1
  let l3 := applyLabelOp (setHasLabelOp (decide (parts.2.1.length > 0)) DEPENDENCY_CHANGE labels0) l2
  let l4 := applyLabelOp (setHasLabelOp (decide (parts.2.2.length > 0)) PACKAGE_CHANGE labels0) l3
  { labels := l4
    comments :=
      match mapExcept (genNarrative fetch owner repo) parts.1 with
      | .error e => .error e
      | .ok narratives =>
        let difftext := String.intercalate "\n\n" narratives
        let difftext := if parts.2.1.length > 0 ∨ parts.2.2.length > 0
          then "**Includes non-plugin changes**\n\n" ++ difftext
          else difftext
        .ok (upsertSticky difftext comments) }

/-! ## The sticky-comment invariant (C9) -/

/-- Number of comments whose body starts with the marker. -/
def markerCount (comments : List GHComment) : Nat :=
  comments.countP (fun c => strStartsWith c.body MARKER)

/-! ## Theorems -/

/-- C7: the label reconciler is idempotent: a second application of
`setHasLabel` with the same condition and label to the resulting label set
changes nothing, and moreover the second application issues no API call at
all (in particular no duplicate `addLabels`). -/
theorem setHasLabel_idempotent (condition : Bool) (label : String) (labels : Finset String) :
    setHasLabel condition label (setHasLabel condition label labels)
      = setHasLabel condition label labels ∧
    setHasLabelOp condition label (setHasLabel condition label labels) = .noop := by
  have key : setHasLabelOp condition label (setHasLabel condition label labels) = .noop := by
    unfold setHasLabel setHasLabelOp
    by_cases hc : condition = true
    · by_cases hm : label ∈ labels
      · simp [hc, hm, applyLabelOp]
      · simp [hc, hm, applyLabelOp]
    · have hc' : condition = false := by
        cases condition
        · rfl
        · exact absurd rfl hc
      by_cases hm : label ∈ labels
      · simp [hc', hm, applyLabelOp]
      · simp [hc', hm, applyLabelOp]
  refine ⟨?_, key⟩
  show applyLabelOp (setHasLabelOp condition label (setHasLabel condition label labels)) _ = _
  rw [key]
  rfl

/-- C8: frame conditions of the reconciler: with a true condition and absent
label exactly that label is inserted, with a false condition and present
label exactly that label is erased, and in the two remaining cases the label
set is returned unchanged. -/
theorem setHasLabel_frame (label : String) (labels : Finset String) :
    (label ∉ labels → setHasLabel true label labels = insert label labels) ∧
    (label ∈ labels → setHasLabel false label labels = labels.erase label) ∧
    (label ∈ labels → setHasLabel true label labels = labels) ∧
    (label ∉ labels → setHasLabel false label labels = labels) := by
  refine ⟨?_, ?_, ?_, ?_⟩ <;> intro h <;>
    simp [setHasLabel, setHasLabelOp, h, applyLabelOp]

/-- Witness for C8 at a concrete label and label sets. -/
theorem setHasLabel_frame_witness :
    setHasLabel true READY_TO_MERGE (∅ : Finset String)
        = insert READY_TO_MERGE (∅ : Finset String) ∧
    setHasLabel false READY_TO_MERGE {READY_TO_MERGE}
        = ({READY_TO_MERGE} : Finset String).erase READY_TO_MERGE ∧
    setHasLabel true READY_TO_MERGE {READY_TO_MERGE} = {READY_TO_MERGE} ∧
    setHasLabel false READY_TO_MERGE (∅ : Finset String) = ∅ := by
  refine ⟨(setHasLabel_frame READY_TO_MERGE ∅).1 (by simp),
    (setHasLabel_frame READY_TO_MERGE {READY_TO_MERGE}).2.1 (by simp),
    (setHasLabel_frame READY_TO_MERGE {READY_TO_MERGE}).2.2.1 (by simp),
    (setHasLabel_frame READY_TO_MERGE ∅).2.2.2 (by simp)⟩

theorem dropWhile_head_false (p : Char → Bool) :
    ∀ (cs : List Char) (d : Char) (rest : List Char),
      cs.dropWhile p = d :: rest → p d = false := by
  intro cs
  induction cs with
  | nil => intro d rest h; cases h
  | cons c cs ih =>
    intro d rest h
    rw [List.dropWhile_cons] at h
    by_cases hpc : p c = true
    · rw [if_pos hpc] at h
      exact ih d rest h
    · rw [if_neg hpc] at h
      cases h
      exact Bool.eq_false_iff.mpr hpc

theorem dropWhile_nil_forall (p : Char → Bool) :
    ∀ cs : List Char, cs.dropWhile p = [] → ∀ x ∈ cs, p x = true := by
  intro cs
  induction cs with
  | nil => intro _ x hx; cases hx
  | cons c cs ih =>
    intro h x hx
    rw [List.dropWhile_cons] at h
    by_cases hpc : p c = true
    · rw [if_pos hpc] at h
      rcases List.mem_cons.mp hx with rfl | hx'
      · exact hpc
      · exact ih h x hx'
    · rw [if_neg hpc] at h
      cases h

theorem execKVRegex_none_of_no_eq (cs : List Char)
    (h : cs.dropWhile (fun c => c != '=') = []) : execKVRegex cs = none := by
  induction cs with
  | nil => rfl
  | cons c cs ih =>
    have hall := dropWhile_nil_forall (fun c => c != '=') (c :: cs) h
    have hc : (c != '=') = true := hall c (List.mem_cons_self c cs)
    have htail : cs.dropWhile (fun c => c != '=') = [] := by
      rw [List.dropWhile_cons, if_pos hc] at h
      exact h
    have hmatch : matchKVAt (c :: cs) = none := by
      simp [matchKVAt, List.takeWhile_cons, List.dropWhile_cons, hc, htail]
    simp [execKVRegex, hmatch, ih htail]

/-- The JS regex application `([^=]+)=(.*)` (leftmost match) agrees with the
spec-level description `parseSpecKV`. -/
theorem execKVRegex_eq_parseSpecKV (cs : List Char) : execKVRegex cs = parseSpecKV cs := by
  induction cs with
  | nil => rfl
  | cons c cs ih =>
    by_cases hc : c = '='
    · subst hc
      have h1 : execKVRegex ('=' :: cs) = execKVRegex cs := by
        simp [execKVRegex, matchKVAt, List.takeWhile_cons]
      have h2 : parseSpecKV ('=' :: cs) = parseSpecKV cs := by
        simp [parseSpecKV, List.dropWhile_cons]
      rw [h1, h2, ih]
    · have hp : (c != '=') = true := by simp [hc]
      have hq : (c == '=') = false := by simp [hc]
      cases hdw : cs.dropWhile (fun x => x != '=') with
      | nil =>
        have hnone : execKVRegex cs = none := execKVRegex_none_of_no_eq cs hdw
        simp [execKVRegex, matchKVAt, parseSpecKV, List.takeWhile_cons,
          List.dropWhile_cons, hp, hq, hdw, hnone]
      | cons d rest =>
        have hd : d = '=' := by
          have := dropWhile_head_false (fun x => x != '=') cs d rest hdw
          simpa using this
        subst hd
        simp [execKVRegex, matchKVAt, parseSpecKV, List.takeWhile_cons,
          List.dropWhile_cons, hp, hq, hdw]

/-! ### JS-object lookup lemmas -/

theorem objGet_nil {α : Type} (q : String) : objGet ([] : List (String × α)) q = none := rfl

theorem objGet_cons {α : Type} (pk : String) (pv : α) (m : List (String × α)) (q : String) :
    objGet ((pk, pv) :: m) q = if q == pk then some pv else objGet m q := rfl

theorem objGet_overwrite {α : Type} (k : String) (v : α) :
    ∀ m : List (String × α), m.any (fun p => p.1 == k) = true →
      objGet (m.map (fun p => if p.1 == k then (k, v) else p)) k = some v := by
  intro m
  induction m with
  | nil => intro h; simp at h
  | cons p m ih =>
    intro h
    obtain ⟨pk, pv⟩ := p
    by_cases hp : pk = k
    · subst hp
      simp [objGet_cons]
    · have h1 : (pk == k) = false := beq_eq_false_iff_ne.mpr hp
      have h2 : (k == pk) = false := beq_eq_false_iff_ne.mpr (Ne.symm hp)
      have hm : m.any (fun p => p.1 == k) = true := by
        rw [List.any_cons] at h
        simpa [h1] using h
      simp only [List.map_cons, h1, Bool.false_eq_true, if_false, objGet_cons, h2]
      exact ih hm

theorem objGet_append_single {α : Type} (k : String) (v : α) :
    ∀ m : List (String × α), m.any (fun p => p.1 == k) = false →
      objGet (m ++ [(k, v)]) k = some v := by
  intro m
  induction m with
  | nil => intro _; simp [objGet_cons, objGet_nil]
  | cons p m ih =>
    intro h
    obtain ⟨pk, pv⟩ := p
    rw [List.any_cons] at h
    have h1 : (pk == k) = false := by
      cases hpk : (pk == k) with
      | true => rw [hpk] at h; simp at h
      | false => rfl
    have h2 : (k == pk) = false := by
      rw [beq_eq_false_iff_ne] at h1 ⊢
      exact Ne.symm h1
    have hm : m.any (fun p => p.1 == k) = false := by
      rw [h1] at h
      simpa using h
    simp [objGet_cons, h2, ih hm]

theorem objGet_objSet_self {α : Type} (m : List (String × α)) (k : String) (v : α) :
    objGet (objSet m k v) k = some v := by
  unfold objSet
  by_cases h : m.any (fun p => p.1 == k) = true
  · rw [if_pos h]
    exact objGet_overwrite k v m h
  · rw [if_neg h]
    exact objGet_append_single k v m (Bool.eq_false_iff.mpr h)

theorem objGet_overwrite_other {α : Type} (k k' : String) (v : α) (hne : k' ≠ k) :
    ∀ m : List (String × α),
      objGet (m.map (fun p => if p.1 == k then (k, v) else p)) k' = objGet m k' := by
  intro m
  induction m with
  | nil => rfl
  | cons p m ih =>
    obtain ⟨pk, pv⟩ := p
    by_cases hp : pk = k
    · subst hp
      have h2 : (k' == pk) = false := beq_eq_false_iff_ne.mpr hne
      simp only [List.map_cons, beq_self_eq_true, if_true, objGet_cons, h2,
        Bool.false_eq_true, if_false]
      exact ih
    · have h1 : (pk == k) = false := beq_eq_false_iff_ne.mpr hp
      simp only [List.map_cons, h1, Bool.false_eq_true, if_false, objGet_cons]
      rw [ih]

theorem objGet_append_single_other {α : Type} (k k' : String) (v : α) (hne : k' ≠ k) :
    ∀ m : List (String × α), objGet (m ++ [(k, v)]) k' = objGet m k' := by
  intro m
  induction m with
  | nil =>
    have h : (k' == k) = false := beq_eq_false_iff_ne.mpr hne
    simp [objGet_cons, objGet_nil, h]
  | cons p m ih =>
    obtain ⟨pk, pv⟩ := p
    simp [objGet_cons, ih]

theorem objGet_objSet_other {α : Type} (m : List (String × α)) (k k' : String) (v : α)
    (hne : k' ≠ k) :
    objGet (objSet m k v) k' = objGet m k' := by
  unfold objSet
  by_cases h : m.any (fun p => p.1 == k) = true
  · rw [if_pos h]
    exact objGet_overwrite_other k k' v hne m
  · rw [if_neg h]
    exact objGet_append_single_other k k' v hne m

theorem getLast?_cons_getD {α : Type} (a : α) :
    ∀ l : List α, (a :: l).getLast? = some (l.getLast?.getD a) := by
  intro l
  induction l generalizing a with
  | nil => rfl
  | cons b l ih =>
    rw [List.getLast?_cons_cons, ih b]
    simp

/-- Folding JS object assignments over a pair list: a key's final value is
the value of the last pair carrying that key, falling back to the initial
object. -/
theorem objGet_foldl_objSet {α : Type} (k : String) :
    ∀ (ps : List (String × α)) (m : List (String × α)),
      objGet (ps.foldl (fun acc p => objSet acc p.1 p.2) m) k =
        match (ps.filter (fun p => p.1 == k)).getLast? with
        | some p => some p.2
        | none => objGet m k := by
  intro ps
  induction ps with
  | nil => intro m; rfl
  | cons p ps ih =>
    intro m
    obtain ⟨pk, pv⟩ := p
    rw [List.foldl_cons]
    rw [ih (objSet m pk pv)]
    by_cases hp : pk = k
    · subst hp
      have hfk : ((pk, pv) :: ps).filter (fun p => p.1 == pk)
          = (pk, pv) :: ps.filter (fun p => p.1 == pk) := by
        simp [List.filter_cons]
      rw [hfk, getLast?_cons_getD]
      cases hlast : (ps.filter (fun p => p.1 == pk)).getLast? with
      | none => simp [objGet_objSet_self]
      | some q => simp
    · have h1 : (pk == k) = false := beq_eq_false_iff_ne.mpr hp
      have hfk : ((pk, pv) :: ps).filter (fun p => p.1 == k)
          = ps.filter (fun p => p.1 == k) := by
        simp [List.filter_cons, h1]
      rw [hfk]
      cases hlast : (ps.filter (fun p => p.1 == k)).getLast? with
      | none => simp [objGet_objSet_other m pk k pv (Ne.symm hp)]
      | some q => simp

theorem foldl_reviewStep (k : String) :
    ∀ (rs : List Review) (m : List (String × Bool)),
      objGet (rs.foldl (fun acc r =>
          if reviewApproved r || (!reviewApproved r && r.state != "COMMENTED")
          then objSet acc r.login (reviewApproved r) else acc) m) k =
        match (rs.filter (fun r => r.login == k && reviewDecisive r)).getLast? with
        | some r => some (reviewApproved r)
        | none => objGet m k := by
  intro rs
  induction rs with
  | nil => intro m; rfl
  | cons r rs ih =>
    intro m
    rw [List.foldl_cons]
    by_cases hd : reviewDecisive r = true
    · have hd' : (reviewApproved r || (!reviewApproved r && r.state != "COMMENTED")) = true := hd
      rw [if_pos hd']
      rw [ih (objSet m r.login (reviewApproved r))]
      by_cases hk : r.login = k
      · have hmem : (r.login == k) = true := by rw [hk]; exact beq_self_eq_true k
        have hfk : (r :: rs).filter (fun r => r.login == k && reviewDecisive r)
            = r :: rs.filter (fun r => r.login == k && reviewDecisive r) := by
          simp [List.filter_cons, hmem, hd]
        rw [hfk, getLast?_cons_getD]
        cases hlast : (rs.filter (fun r => r.login == k && reviewDecisive r)).getLast? with
        | none =>
          rw [hk]
          simp [objGet_objSet_self]
        | some q => simp
      · have hne : (r.login == k && reviewDecisive r) = false := by
          simp [beq_eq_false_iff_ne.mpr hk]
        have hfk : (r :: rs).filter (fun r => r.login == k && reviewDecisive r)
            = rs.filter (fun r => r.login == k && reviewDecisive r) := by
          simp [List.filter_cons, hne]
        rw [hfk]
        cases hlast : (rs.filter (fun r => r.login == k && reviewDecisive r)).getLast? with
        | none => simp [objGet_objSet_other m r.login k (reviewApproved r) (Ne.symm hk)]
        | some q => simp
    · have hd' : ¬ ((reviewApproved r || (!reviewApproved r && r.state != "COMMENTED")) = true) := hd
      rw [if_neg hd']
      rw [ih m]
      have hdf : reviewDecisive r = false := Bool.eq_false_iff.mpr hd
      have hfk : (r :: rs).filter (fun r => r.login == k && reviewDecisive r)
          = rs.filter (fun r => r.login == k && reviewDecisive r) := by
        simp [List.filter_cons, hdf]
      rw [hfk]

/-- C3: the decision map is a left-to-right fold of the team-filtered reviews:
for a team login, its final entry is exactly the approval flag of its last
decisive review (`APPROVED` or body `lgtm` approves; any other non-`COMMENTED`
state rejects), and non-decisive comments neither create nor reset entries. -/
theorem reviewStates_last_decisive (members : List String) (reviews : List Review)
    (login : String) (h : login ∈ members) :
    objGet (reviewStates members reviews) login =
      ((reviews.filter (fun r => r.login == login && reviewDecisive r)).getLast?).map
        (fun r => reviewApproved r) := by
  unfold reviewStates
  rw [foldl_reviewStep login (reviews.filter (fun r => members.contains r.login)) []]
  rw [List.filter_filter]
  have hcongr : (reviews.filter fun a =>
        (a.login == login && reviewDecisive a) && members.contains a.login)
      = reviews.filter fun r => r.login == login && reviewDecisive r := by
    apply List.filter_congr
    intro r _
    by_cases hr : (r.login == login) = true
    · have hc : members.contains r.login = true := by
        rw [beq_iff_eq.mp hr]
        exact List.elem_iff.mpr h
      rw [hr, hc]
      cases reviewDecisive r <;> rfl
    · have hr' : (r.login == login) = false := Bool.eq_false_iff.mpr hr
      rw [hr']
      cases reviewDecisive r <;> cases members.contains r.login <;> rfl
  rw [hcongr]
  cases (reviews.filter fun r => r.login == login && reviewDecisive r).getLast? with
  | none => rfl
  | some q => rfl

/-- Witness for C3: a team member posting `CHANGES_REQUESTED` and then
`APPROVED` ends up approved in the decision map. -/
theorem reviewStates_last_decisive_witness :
    objGet (reviewStates ["alice"]
      [⟨"alice", "CHANGES_REQUESTED", ""⟩, ⟨"alice", "APPROVED", ""⟩]) "alice" = some true := by
  have h := reviewStates_last_decisive ["alice"]
    [⟨"alice", "CHANGES_REQUESTED", ""⟩, ⟨"alice", "APPROVED", ""⟩] "alice" (by decide)
  rw [h]
  rfl

theorem mem_of_objGet_eq {α : Type} : ∀ (m : List (String × α)) (k : String) (v : α),
    objGet m k = some v → (k, v) ∈ m := by
  intro m
  induction m with
  | nil => intro k v h; cases h
  | cons p m ih =>
    intro k v h
    obtain ⟨pk, pv⟩ := p
    rw [objGet_cons] at h
    by_cases hk : (k == pk) = true
    · rw [if_pos hk] at h
      injection h with h'
      rw [beq_iff_eq.mp hk, h']
      exact List.mem_cons_self _ _
    · rw [if_neg hk] at h
      exact List.mem_cons_of_mem _ (ih k v h)

/-- C2 (amended): if some approver-team login's final decision in the map is
a rejection, the handler's resulting label set never contains
`ready to merge` (removed when present, not added), regardless of any other
approvals in the list.  (The labels must carry `plugin change`, otherwise the
handler exits before touching anything.) -/
theorem reviewHandler_blocks_on_final_rejection (members : List String)
    (reviews : List Review) (labels : Finset String)
    (hplugin : PLUGIN_CHANGE ∈ labels)
    (hrej : ∃ login, objGet (reviewStates members reviews) login = some false) :
    READY_TO_MERGE ∉ reviewHandler members reviews labels := by
  obtain ⟨login, hlogin⟩ := hrej
  have hmem := mem_of_objGet_eq _ _ _ hlogin
  unfold reviewHandler
  rw [if_neg (not_not_intro hplugin)]
  have hrev : ¬ (reviews.length ≤ 0) := by
    intro hle
    have hnil : reviews = [] := List.length_eq_zero.mp (Nat.le_zero.mp hle)
    rw [hnil] at hmem
    simp [reviewStates] at hmem
  rw [if_neg hrev]
  have hunap : (((reviewStates members reviews).filter (fun p => !p.2)).map Prod.fst).length > 0 := by
    rw [List.length_map]
    have hin : (login, false) ∈ (reviewStates members reviews).filter (fun p => !p.2) := by
      rw [List.mem_filter]
      exact ⟨hmem, rfl⟩
    exact List.length_pos.mpr (List.ne_nil_of_mem hin)
  rw [if_pos hunap]
  by_cases hr : READY_TO_MERGE ∈ labels
  · rw [if_pos hr]
    exact Finset.not_mem_erase _ _
  · rw [if_neg hr]
    exact hr

/-- Witness for C2 (amended), spec scenario 4: alice approves but bob (team
member) requests changes; `ready to merge` is absent from the result. -/
theorem reviewHandler_blocks_witness :
    READY_TO_MERGE ∉ reviewHandler ["alice", "bob"]
      [⟨"alice", "APPROVED", ""⟩, ⟨"bob", "CHANGES_REQUESTED", ""⟩]
      {PLUGIN_CHANGE, READY_TO_MERGE} :=
  reviewHandler_blocks_on_final_rejection _ _ _ (by decide) ⟨"bob", by decide⟩

/-- Counterexample to C2 as stated: the review list contains a decisive
rejection by team member alice, yet because alice later approves (last write
wins), the handler adds `ready to merge`. -/
theorem reviewHandler_rejection_then_approval_adds_ready :
    reviewDecisive ⟨"alice", "CHANGES_REQUESTED", ""⟩ = true ∧
    reviewApproved ⟨"alice", "CHANGES_REQUESTED", ""⟩ = false ∧
    READY_TO_MERGE ∈ reviewHandler ["alice"]
      [⟨"alice", "CHANGES_REQUESTED", ""⟩, ⟨"alice", "APPROVED", ""⟩] {PLUGIN_CHANGE} := by
  refine ⟨rfl, rfl, ?_⟩
  decide

/-- C4: whenever the decision map comes out empty (no reviews, no team
reviews, or only non-decisive team comments), the handler leaves the label
set exactly as it was. -/
theorem reviewHandler_empty_map_noop (members : List String) (reviews : List Review)
    (labels : Finset String) (h : reviewStates members reviews = []) :
    reviewHandler members reviews labels = labels := by
  unfold reviewHandler
  by_cases h1 : PLUGIN_CHANGE ∉ labels
  · rw [if_pos h1]
  · rw [if_neg h1]
    by_cases h2 : reviews.length ≤ 0
    · rw [if_pos h2]
    · rw [if_neg h2]
      simp [h]

/-- Witness for C4, spec scenario 5: a single `APPROVED` review by a
non-member leaves the labels (including an existing `ready to merge`)
untouched. -/
theorem reviewHandler_empty_map_noop_witness :
    reviewHandler ["alice"] [⟨"eve", "APPROVED", ""⟩]
      {PLUGIN_CHANGE, READY_TO_MERGE} = {PLUGIN_CHANGE, READY_TO_MERGE} :=
  reviewHandler_empty_map_noop ["alice"] [⟨"eve", "APPROVED", ""⟩]
    {PLUGIN_CHANGE, READY_TO_MERGE} rfl

theorem takeWhile_append_stop (p : Char → Bool) :
    ∀ (l1 : List Char) (c : Char) (l2 : List Char),
      (∀ a ∈ l1, p a = true) → p c = false →
      (l1 ++ c :: l2).takeWhile p = l1 := by
  intro l1
  induction l1 with
  | nil =>
    intro c l2 _ hc
    rw [List.nil_append, List.takeWhile_cons, if_neg]
    rw [hc]
    exact Bool.false_ne_true
  | cons a l1 ih =>
    intro c l2 h hc
    rw [List.cons_append, List.takeWhile_cons, if_pos (h a (List.mem_cons_self a l1))]
    rw [ih c l2 (fun x hx => h x (List.mem_cons_of_mem a hx)) hc]

theorem dropWhile_append_stop (p : Char → Bool) :
    ∀ (l1 : List Char) (c : Char) (l2 : List Char),
      (∀ a ∈ l1, p a = true) → p c = false →
      (l1 ++ c :: l2).dropWhile p = c :: l2 := by
  intro l1
  induction l1 with
  | nil =>
    intro c l2 _ hc
    rw [List.nil_append, List.dropWhile_cons, if_neg]
    rw [hc]
    exact Bool.false_ne_true
  | cons a l1 ih =>
    intro c l2 h hc
    rw [List.cons_append, List.dropWhile_cons, if_pos (h a (List.mem_cons_self a l1))]
    exact ih c l2 (fun x hx => h x (List.mem_cons_of_mem a hx)) hc

theorem isPrefixOf_append_self : ∀ (p t : List Char), p.isPrefixOf (p ++ t) = true := by
  intro p t
  induction p with
  | nil => simp [List.isPrefixOf]
  | cons a p ih => simp [List.isPrefixOf, ih]

theorem execCloneRegex_of_match :
    ∀ (s : List Char) (r : List Char × List Char),
      matchCloneAt s = some r → execCloneRegex s = some r := by
  intro s r h
  cases s with
  | nil =>
    rw [(rfl : matchCloneAt [] = none)] at h
    cases h
  | cons c cs =>
    show (match matchCloneAt (c :: cs) with
      | some r => some r
      | none => execCloneRegex cs) = some r
    rw [h]

/-- C5 (amended, positive half): on every clone URL of the canonical shape
`https://github.com/<user>/<repo>.git` (nonempty `user` without `/`, nonempty
`repo` without `.`), extraction succeeds with exactly the `{user, repo}`
named in the URL. -/
theorem extractURL_canonical (user repo : List Char)
    (hu : user ≠ []) (huS : ∀ c ∈ user, c ≠ '/')
    (hr : repo ≠ []) (hrS : ∀ c ∈ repo, c ≠ '.') :
    extractURL (String.mk (ghLit ++ (user ++ '/' :: (repo ++ ".git".toList))))
      = .ok (String.mk user, String.mk repo) := by
  have hgit : (".git".toList : List Char) = '.' :: "git".toList := rfl
  have hmatch : matchCloneAt (ghLit ++ (user ++ '/' :: (repo ++ ".git".toList)))
      = some (user, repo) := by
    have hpre := isPrefixOf_append_self ghLit (user ++ '/' :: (repo ++ ".git".toList))
    have hdropP : (ghLit ++ (user ++ '/' :: (repo ++ ".git".toList))).drop ghLit.length
        = user ++ '/' :: (repo ++ ".git".toList) := List.drop_left _ _
    have huser : (user ++ '/' :: (repo ++ ".git".toList)).takeWhile (fun c => c != '/') = user :=
      takeWhile_append_stop _ user '/' _ (fun a ha => by simpa using huS a ha) (by simp)
    have hslash : (user ++ '/' :: (repo ++ ".git".toList)).dropWhile (fun c => c != '/')
        = '/' :: (repo ++ ".git".toList) :=
      dropWhile_append_stop _ user '/' _ (fun a ha => by simpa using huS a ha) (by simp)
    have huE : user.isEmpty = false := by
      cases user with
      | nil => exact absurd rfl hu
      | cons a l => rfl
    have hrepo : (repo ++ ".git".toList).takeWhile (fun c => c != '.') = repo := by
      rw [hgit]
      exact takeWhile_append_stop _ repo '.' _ (fun a ha => by simpa using hrS a ha) (by simp)
    obtain ⟨a, repo', rfl⟩ := List.exists_cons_of_ne_nil hr
    have hlen : (a :: repo').length = repo'.length + 1 := rfl
    have hdropC : ((a :: repo') ++ ".git".toList).drop (repo'.length + 1)
        = '.' :: "git".toList := by
      rw [hgit, ← hlen]
      exact List.drop_left _ _
    have hsearch : searchGitAt ((a :: repo') ++ ".git".toList)
        (((a :: repo') ++ ".git".toList).takeWhile (fun c => c != '.')).length
        = some (repo'.length + 1) := by
      rw [hrepo, hlen]
      show (match ((a :: repo') ++ ".git".toList).drop (repo'.length + 1) with
        | c :: tail =>
          if !isJSLineTerminator c && ("git".toList).isPrefixOf tail then some (repo'.length + 1)
          else searchGitAt ((a :: repo') ++ ".git".toList) repo'.length
        | [] => searchGitAt ((a :: repo') ++ ".git".toList) repo'.length)
        = some (repo'.length + 1)
      rw [hdropC]
      show (if !isJSLineTerminator '.' && ("git".toList).isPrefixOf "git".toList
          then some (repo'.length + 1)
          else searchGitAt ((a :: repo') ++ ".git".toList) repo'.length)
        = some (repo'.length + 1)
      rw [if_pos (by decide :
        (!isJSLineTerminator '.' && ("git".toList).isPrefixOf "git".toList) = true)]
    have htake : ((a :: repo') ++ ".git".toList).take (repo'.length + 1) = a :: repo' := by
      rw [← hlen]
      exact List.take_left _ _
    unfold matchCloneAt
    rw [if_pos hpre]
    simp only [hdropP, huser, huE, hslash, Bool.false_eq_true, if_false, hsearch, htake]
  have hexec := execCloneRegex_of_match _ _ hmatch
  show (match execCloneRegex (ghLit ++ (user ++ '/' :: (repo ++ ".git".toList))) with
    | some p => Except.ok (String.mk p.1, String.mk p.2)
    | none => Except.error ("Plugin repository must be a github https clone url, not `"
        ++ String.mk (ghLit ++ (user ++ '/' :: (repo ++ ".git".toList))) ++ "`"))
    = Except.ok (String.mk user, String.mk repo)
  rw [hexec]

/-- Witness for C5 (amended) at the concrete URL
`https://github.com/alice/foo.git`. -/
theorem extractURL_canonical_witness :
    extractURL (String.mk (ghLit ++ (("alice".toList) ++ '/' :: (("foo".toList) ++ ".git".toList))))
      = .ok (String.mk "alice".toList, String.mk "foo".toList) :=
  extractURL_canonical "alice".toList "foo".toList (by decide) (by decide) (by decide) (by decide)

/-- Counterexample to C5 as stated: `https://github.com/a/bXgit` does not
even end in `.git` (so it is not of the shape
`https://github.com/<user>/<repo>.git`, which always has `.git` as a
suffix), yet extraction succeeds because the unescaped `.` of the regex
matches `X`; likewise `xxhttps://github.com/a/b.git` does not start with
`https://github.com/` yet succeeds because the regex is unanchored.  Neither
malformed URL is a hard failure. -/
theorem extractURL_accepts_malformed :
    (extractURL "https://github.com/a/bXgit" = .ok ("a", "b") ∧
      ¬ (".git".toList <:+ "https://github.com/a/bXgit".toList)) ∧
    (extractURL "xxhttps://github.com/a/b.git" = .ok ("a", "b") ∧
      ¬ (ghLit.isPrefixOf "xxhttps://github.com/a/b.git".toList = true)) := by
  refine ⟨⟨rfl, by decide⟩, ⟨rfl, by decide⟩⟩

/-! ## Theorems about the `pull_request` handler -/

/-- C1 (amended): for a PR whose changed-file list is exactly
`package/verification-template/build.gradle`, no plugin narrative is
generated (the plugin partition is empty), but because a dependency change
is present the fixed warning line is prepended to the (empty) narrative, so
the comment body is the marker line followed by the warning - and when no
sticky comment exists, a comment with that body IS created. -/
theorem depOnly_creates_warning_comment (fetch : String → String) (owner repo : String)
    (status raw : String) (prev : Option String) (labels0 : Finset String) :
    (classify [⟨"package/verification-template/build.gradle", status, raw, prev⟩]).1 = [] ∧
    (pullRequestHandler fetch owner repo
        [⟨"package/verification-template/build.gradle", status, raw, prev⟩] [] labels0).comments
      = .ok [⟨1, "<!-- rlphc -->\n**Includes non-plugin changes**\n\n"⟩] := by
  exact ⟨rfl, rfl⟩

/-- Counterexample to C1 as stated: with only the dependency manifest changed
and no existing comment, the handler does create a comment, and its body is
not just the marker line. -/
theorem depOnly_comment_created :
    (pullRequestHandler (fun _ => "") "runelite" "plugin-hub"
        [⟨"package/verification-template/build.gradle", "modified", "", none⟩] [] ∅).comments
      = .ok [⟨1, "<!-- rlphc -->\n**Includes non-plugin changes**\n\n"⟩] ∧
    "<!-- rlphc -->\n**Includes non-plugin changes**\n\n" ≠ MARKER ∧
    "<!-- rlphc -->\n**Includes non-plugin changes**\n\n" ≠ MARKER ++ "\n" := by
  refine ⟨rfl, by decide, by decide⟩

/-- The comment half of the handler, written with the partition spelled
out. -/
theorem pullRequestHandler_comments_eq (fetch : String → String) (owner repo : String)
    (files : List ChangedFile) (comments : List GHComment) (labels0 : Finset String) :
    (pullRequestHandler fetch owner repo files comments labels0).comments
      = match mapExcept (genNarrative fetch owner repo) (classify files).1 with
        | .error e => .error e
        | .ok narratives =>
          .ok (upsertSticky
            (if (classify files).2.1.length > 0 ∨ (classify files).2.2.length > 0
             then "**Includes non-plugin changes**\n\n" ++ String.intercalate "\n\n" narratives
             else String.intercalate "\n\n" narratives) comments) := rfl

theorem mapExcept_error {α β : Type} (g : α → Except String β) :
    ∀ (l : List α) (x : α), x ∈ l → ∀ e : String, g x = .error e →
      ∃ msg, mapExcept g l = .error msg := by
  intro l
  induction l with
  | nil => intro x hx; cases hx
  | cons y ys ih =>
    intro x hx e hxe
    have hcons : mapExcept g (y :: ys) = match g y with
        | .error e => .error e
        | .ok v =>
          match mapExcept g ys with
          | .error e => .error e
          | .ok vs => .ok (v :: vs) := rfl
    rcases List.mem_cons.mp hx with rfl | hx'
    · exact ⟨e, by rw [hcons, hxe]⟩
    · cases hgy : g y with
      | error e' => exact ⟨e', by rw [hcons, hgy]⟩
      | ok v =>
        obtain ⟨msg, hmsg⟩ := ih x hx' e hxe
        exact ⟨msg, by rw [hcons, hgy, hmsg]⟩

/-- C6: if clone-URL extraction fails on the fetched `repository` field of
some plugin file (status other than `removed`, so extraction runs), the
error propagates out of the handler and the comment list is never produced:
the sticky comment is neither created nor updated, because the upsert runs
only after narrative generation succeeded for every plugin file. -/
theorem extraction_failure_no_comment (fetch : String → String) (owner repo : String)
    (files : List ChangedFile) (comments : List GHComment) (labels0 : Finset String)
    (f : ChangedFile) (hf : f ∈ (classify files).1) (hst : f.status ≠ "removed")
    (e : String)
    (he : extractURL (kvGetD (readKV (fetch f.raw_url)) "repository") = .error e) :
    ∃ msg, (pullRequestHandler fetch owner repo files comments labels0).comments
      = .error msg := by
  have hstb : (f.status == "removed") = false := beq_eq_false_iff_ne.mpr hst
  have hgen : genNarrative fetch owner repo f = .error e := by
    simp only [genNarrative, hstb, Bool.false_eq_true, if_false, he]
  obtain ⟨msg, hmsg⟩ :=
    mapExcept_error (genNarrative fetch owner repo) (classify files).1 f hf e hgen
  refine ⟨msg, ?_⟩
  rw [pullRequestHandler_comments_eq, hmsg]

/-- Witness for C6: a single added plugin file whose fetched content declares
a non-GitHub clone URL; the handler's comment step fails. -/
theorem extraction_failure_no_comment_witness :
    ∃ msg, (pullRequestHandler (fun _ => "repository=nonsense\ncommit=abc")
        "runelite" "plugin-hub" [⟨"plugins/foo", "added", "rawurl", none⟩] [] ∅).comments
      = .error msg :=
  extraction_failure_no_comment (fun _ => "repository=nonsense\ncommit=abc")
    "runelite" "plugin-hub" [⟨"plugins/foo", "added", "rawurl", none⟩] [] ∅
    ⟨"plugins/foo", "added", "rawurl", none⟩ (by decide) (by decide)
    "Plugin repository must be a github https clone url, not `nonsense`" rfl

theorem strStartsWith_append (pre rest : String) : strStartsWith (pre ++ rest) pre = true := by
  unfold strStartsWith
  have h : (pre ++ rest).toList = pre.toList ++ rest.toList := by simp [String.toList]
  rw [h]
  exact isPrefixOf_append_self _ _

theorem marker_body_starts (difftext : String) :
    strStartsWith (MARKER ++ "\n" ++ difftext) MARKER = true := by
  rw [String.append_assoc]
  exact strStartsWith_append MARKER ("\n" ++ difftext)

theorem le_foldr_max : ∀ (l : List Nat) (x : Nat), x ∈ l → x ≤ l.foldr max 0 := by
  intro l
  induction l with
  | nil => intro x hx; cases hx
  | cons a l ih =>
    intro x hx
    rcases List.mem_cons.mp hx with rfl | hx'
    · exact Nat.le_max_left _ _
    · exact le_trans (ih x hx') (Nat.le_max_right _ _)

theorem freshCommentId_not_mem (comments : List GHComment) :
    freshCommentId comments ∉ comments.map GHComment.id := by
  intro hmem
  have hle := le_foldr_max (comments.map GHComment.id) _ hmem
  exact Nat.not_succ_le_self _ hle

theorem upsertSticky_invariant (difftext : String) (comments : List GHComment)
    (hids : (comments.map GHComment.id).Nodup) (h1 : markerCount comments ≤ 1) :
    ((upsertSticky difftext comments).map GHComment.id).Nodup ∧
      markerCount (upsertSticky difftext comments) ≤ 1 := by
  cases hfind : comments.find? (fun c => strStartsWith c.body MARKER) with
  | none =>
    have hup : upsertSticky difftext comments
        = if difftext == "" then comments
          else comments
            ++ [{ id := freshCommentId comments, body := MARKER ++ "\n" ++ difftext }] := by
      unfold upsertSticky
      rw [hfind]
    rw [hup]
    by_cases hd : (difftext == "") = true
    · rw [if_pos hd]
      exact ⟨hids, h1⟩
    · rw [if_neg hd]
      refine ⟨?_, ?_⟩
      · rw [List.map_append]
        rw [List.nodup_append]
        refine ⟨hids, List.nodup_singleton _, ?_⟩
        intro a ha hb
        have hab : a = freshCommentId comments := by simpa using hb
        rw [hab] at ha
        exact freshCommentId_not_mem comments ha
      · unfold markerCount
        rw [List.countP_append]
        have hz : comments.countP (fun c => strStartsWith c.body MARKER) = 0 := by
          rw [List.countP_eq_zero]
          intro a ha
          have := List.find?_eq_none.mp hfind a ha
          simpa using this
        rw [hz]
        simp [List.countP_cons, marker_body_starts]
  | some sticky =>
    have hup : upsertSticky difftext comments
        = comments.map (fun c =>
            if c.id = sticky.id then { id := c.id, body := MARKER ++ "\n" ++ difftext }
            else c) := by
      unfold upsertSticky
      rw [hfind]
    have hsp := List.find?_some hfind
    have hsm := List.mem_of_find?_eq_some hfind
    have honly : ∀ c ∈ comments, strStartsWith c.body MARKER = true → c = sticky := by
      intro c hc hcp
      have hcf : c ∈ comments.filter (fun c => strStartsWith c.body MARKER) :=
        List.mem_filter.mpr ⟨hc, hcp⟩
      have hsf : sticky ∈ comments.filter (fun c => strStartsWith c.body MARKER) :=
        List.mem_filter.mpr ⟨hsm, hsp⟩
      have hlen : (comments.filter (fun c => strStartsWith c.body MARKER)).length ≤ 1 := by
        rw [← List.countP_eq_length_filter]
        exact h1
      cases hfl : comments.filter (fun c => strStartsWith c.body MARKER) with
      | nil =>
        rw [hfl] at hcf
        cases hcf
      | cons z zs =>
        rw [hfl] at hcf hsf hlen
        cases zs with
        | nil =>
          have h1c : c = z := by simpa using hcf
          have h1s : sticky = z := by simpa using hsf
          rw [h1c, h1s]
        | cons w ws => simp at hlen
    rw [hup]
    constructor
    · have hmap : (comments.map (fun c =>
          if c.id = sticky.id then ({ id := c.id, body := MARKER ++ "\n" ++ difftext } : GHComment)
          else c)).map GHComment.id = comments.map GHComment.id := by
        rw [List.map_map]
        apply List.map_congr_left
        intro a _
        by_cases ha : a.id = sticky.id <;> simp [ha]
      rw [hmap]
      exact hids
    · unfold markerCount
      rw [List.countP_map]
      have hcong : comments.countP ((fun c => strStartsWith c.body MARKER) ∘ (fun c =>
          if c.id = sticky.id then ({ id := c.id, body := MARKER ++ "\n" ++ difftext } : GHComment)
          else c)) = comments.countP (fun c => c.id == sticky.id) := by
        apply List.countP_congr
        intro c hc
        by_cases hcid : c.id = sticky.id
        · simp [Function.comp, hcid, marker_body_starts]
        · simp only [Function.comp, if_neg hcid]
          constructor
          · intro hp
            exact absurd (congrArg GHComment.id (honly c hc hp)) hcid
          · intro hb
            exact absurd (beq_iff_eq.mp hb) hcid
      rw [hcong]
      have h1' : (comments.map GHComment.id).count sticky.id ≤ 1 :=
        List.nodup_iff_count_le_one.mp hids sticky.id
      rw [List.count_eq_countP, List.countP_map] at h1'
      simpa [Function.comp] using h1'

/-- C9: after any sequence of upserts with non-empty narrative, at most one
marker comment exists, provided at most one existed beforehand and the
starting comment ids are distinct (GitHub ids are unique): the upserter
always searches first, overwrites the first marker comment in place when
found, and creates a comment only when none is found. -/
theorem sticky_at_most_one (narratives : List String) (comments : List GHComment)
    (hn : ∀ d ∈ narratives, d ≠ "")
    (hids : (comments.map GHComment.id).Nodup)
    (h1 : markerCount comments ≤ 1) :
    markerCount (narratives.foldl (fun cs d => upsertSticky d cs) comments) ≤ 1 := by
  clear hn
  induction narratives generalizing comments with
  | nil => exact h1
  | cons d ds ih =>
    rw [List.foldl_cons]
    obtain ⟨hids', h1'⟩ := upsertSticky_invariant d comments hids h1
    exact ih _ hids' h1'

/-- Witness for C9: two successive upserts onto an issue with one unrelated
comment leave at most one marker comment. -/
theorem sticky_at_most_one_witness :
    markerCount ((["first narrative", "second narrative"]).foldl
      (fun cs d => upsertSticky d cs) [⟨5, "hello"⟩]) ≤ 1 :=
  sticky_at_most_one ["first narrative", "second narrative"] [⟨5, "hello"⟩]
    (by decide) (by decide) (by decide)

/-! ## Theorems about `readKV` (C10) -/

/-- C10 (amended): a single regex application behaves like `parseSpecKV`
(skip the leading run of `=` characters - the regex being unanchored - then
the line contributes iff a nonempty `=`-free key followed by `=` remains,
pairing that key with the characters after the `=` up to the first line
terminator, since the JS `.` matches no line terminator), and in the
resulting record each key holds the value of the last line that parsed to
it. -/
theorem readKV_characterization :
    (∀ cs : List Char, execKVRegex cs = parseSpecKV cs) ∧
    (∀ (data : String) (k : String),
      objGet (readKV data) k
        = (((splitLines data.toList).filterMap parseKVLine).filter
            (fun p => p.1 == k)).getLast?.map Prod.snd) := by
  refine ⟨execKVRegex_eq_parseSpecKV, ?_⟩
  intro data k
  unfold readKV
  rw [objGet_foldl_objSet]
  cases (((splitLines data.toList).filterMap parseKVLine).filter (fun p => p.1 == k)).getLast? with
  | none => rfl
  | some q => rfl

/-- Counterexample to C10 as stated, twice over: the line `=k=v` has an
empty prefix before its first `=`, so the claim says it contributes nothing,
but the unanchored regex matches at the second character and the record gets
the entry `("k", "v")`; and on the CRLF-style line `k=v\rx` the claim says
the value is the whole remainder `v\rx`, but the JS `.` does not match the
carriage return, so the program stores only `v`. -/
theorem readKV_counterexamples :
    readKV "=k=v" = [("k", "v")] ∧
    readKV "k=v\rx" = [("k", "v")] ∧
    readKV "k=v\rx" ≠ [("k", "v\rx")] := by
  refine ⟨by decide, by decide, by decide⟩

end RLGH
